import Mathlib

/-!
Verification of the ERD explorer schema-analysis core, shallowly embedded
from the Python source. The data model mirrors the ingested metadata
(tables, columns, foreign keys), the networkx DiGraph built from it, the
junction-table classification, the many-to-many partner analysis, the
aggregate statistics and the bounded-depth path finder.
-/

set_option maxRecDepth 4000

/-- A foreign key constraint as ingested from metadata: the constrained
column on the owning table, the referenced table and the referenced column. -/
structure FK where
  fk_column : String
  ref_table : String
  ref_column : String
deriving DecidableEq, Repr

/-- One ingested table: its name, column count and foreign keys. -/
structure TableMeta where
  name : String
  cols : Nat
  fks : List FK
deriving DecidableEq, Repr

/-- A relationship edge of the built graph: parent is the referenced table,
child is the owning table, plus the column attributes stored on the edge. -/
structure Edge where
  parent : String
  child : String
  fk_column : String
  ref_column : String
deriving DecidableEq, Repr

/-- The networkx DiGraph model: node list in insertion order without
duplicates, and edge list keyed by the (parent, child) pair. -/
structure DiGraph where
  nodes : List String
  edges : List Edge
deriving DecidableEq, Repr

/-- Two edges share the same DiGraph key, that is the same (parent, child)
pair of endpoints. -/
def sameKey (a b : Edge) : Bool :=
  a.parent == b.parent && a.child == b.child

/-- Whether the edge list already holds an edge with the key of e. -/
def hasKey (es : List Edge) (e : Edge) : Bool :=
  es.any (sameKey e)

/-- networkx add_node: appends the node unless it is already present. -/
def addNode (g : DiGraph) (n : String) : DiGraph :=
  if n ∈ g.nodes then g else ⟨g.nodes ++ [n], g.edges⟩

/-- networkx DiGraph add_edge on the edge list: an existing edge with the
same (parent, child) key has its attributes overwritten in place; otherwise
the edge is appended. Parallel edges cannot be represented. -/
def insertEdge (es : List Edge) (e : Edge) : List Edge :=
  if hasKey es e then es.map (fun e2 => if sameKey e e2 then e else e2)
  else es ++ [e]

/-- networkx add_edge: both endpoints are added as nodes if missing, then
the edge is inserted into the edge list. -/
def addEdge (g : DiGraph) (e : Edge) : DiGraph :=
  let g1 := addNode (addNode g e.parent) e.child
  ⟨g1.nodes, insertEdge g1.edges e⟩

/-- The edges contributed by one table: one per foreign key, with
parent = referenced table and child = owning table. -/
def tableEdges (tb : TableMeta) : List Edge :=
  tb.fks.map (fun fk => ⟨fk.ref_table, tb.name, fk.fk_column, fk.ref_column⟩)

/-- Processing one table of the build loop: add_node for the table, then
add_edge for each of its foreign keys in order. -/
def addTable (g : DiGraph) (tb : TableMeta) : DiGraph :=
  (tableEdges tb).foldl addEdge (addNode g tb.name)

/-- The graph build loop over the ingested table list. -/
def buildGraph (tables : List TableMeta) : DiGraph :=
  tables.foldl addTable ⟨[], []⟩

/-- All foreign keys of the input flattened to edges, in processing order. -/
def allFKEdges (tables : List TableMeta) : List Edge :=
  tables.flatMap tableEdges

/-- The names of the ingested tables, in input order. -/
def tableNames (tables : List TableMeta) : List String :=
  tables.map (fun tb => tb.name)

/-- The junction marker test of the source: the character X occurs in the
table name. -/
def hasMarker (s : String) : Bool :=
  s.data.contains 'X'

/-- Tables whose name contains the marker, as collected by the build loop. -/
def junctionTables (tables : List TableMeta) : List String :=
  (tableNames tables).filter hasMarker

/-- Tables whose name does not contain the marker. -/
def coreTables (tables : List TableMeta) : List String :=
  (tableNames tables).filter (fun n => !(hasMarker n))

/-- Helper for splitX: walks the characters, flushing the current piece
when a run of X separators starts and skipping the rest of the run. -/
def splitXAux : List Char → List Char → Bool → List (List Char)
  | [], acc, _ => [acc.reverse]
  | c :: rest, acc, inX =>
    if c = 'X' then
      if inX then splitXAux rest acc inX
      else acc.reverse :: splitXAux rest [] true
    else splitXAux rest (c :: acc) false

/-- The regex split on one-or-more X characters used by the source. -/
def splitX (s : String) : List String :=
  (splitXAux s.data [] false).map (fun cs => String.mk cs)

/-- The junction decomposition of the source: the split must yield exactly
two parts and both must be core tables. -/
def decomposePair (core : List String) (jt : String) : Option (String × String) :=
  match splitX jt with
  | [e1, e2] => if e1 ∈ core ∧ e2 ∈ core then some (e1, e2) else none
  | _ => none

/-- One junction relationship record: an entity, the junction table, and
the entity on the other side. -/
structure JRel where
  entity : String
  junction : String
  related : String
deriving DecidableEq, Repr

/-- The junction relationship map of the source, flattened: each junction
that decomposes into two core entities contributes one record per side. -/
def junctionRels (tables : List TableMeta) : List JRel :=
  (junctionTables tables).flatMap (fun jt =>
    match decomposePair (coreTables tables) jt with
    | some (e1, e2) => [⟨e1, jt, e2⟩, ⟨e2, jt, e1⟩]
    | none => [])

/-- The inspector lookup of a table foreign-key list by table name. -/
def fksOf (tables : List TableMeta) (n : String) : List FK :=
  match tables.find? (fun tb => tb.name == n) with
  | some tb => tb.fks
  | none => []

/-- One row of the many-to-many relationships table of the source. -/
structure M2M where
  junction : String
  related : List String
  rel : String
deriving DecidableEq, Repr

/-- The contribution of one junction table to the many-to-many analysis of
a selected table, mirroring the source loop body. -/
def m2mBlock (tables : List TableMeta) (selected jt : String) : List M2M :=
  if selected ∈ splitX jt then
    let others := (splitX jt).filter (fun p => !(p == "") && !(p == selected))
    if others = [] then []
    else
      let toSel := (fksOf tables jt).any (fun fk => fk.ref_table == selected)
      let toOth := (fksOf tables jt).any (fun fk => others.contains fk.ref_table)
      if toSel || toOth then
        [⟨jt, others, if toSel && toOth then "Complete" else "Partial"⟩]
      else []
  else []

/-- The many-to-many relationships computed for a selected table: the
section only runs for non-junction tables and scans every junction table. -/
def m2mEntries (tables : List TableMeta) (selected : String) : List M2M :=
  if hasMarker selected then []
  else (junctionTables tables).flatMap (m2mBlock tables selected)

/-- The per-foreign-key count accumulated on the child side, one per FK
whose owning table is t. -/
def fkIn (tables : List TableMeta) (t : String) : Nat :=
  ((allFKEdges tables).filter (fun e => e.child == t)).length

/-- The per-foreign-key count accumulated on the parent side, one per FK
whose referenced table is t. -/
def fkOut (tables : List TableMeta) (t : String) : Nat :=
  ((allFKEdges tables).filter (fun e => e.parent == t)).length

/-- networkx DiGraph degree: in-degree plus out-degree over the stored
edge list; a self-loop is counted by both. -/
def degree (g : DiGraph) (t : String) : Nat :=
  (g.edges.filter (fun e => e.child == t)).length +
    (g.edges.filter (fun e => e.parent == t)).length

/-- Round a rational to the nearest integer, ties to even, as Python round
does on the exact value. -/
def rndHalfEven (x : ℚ) : ℤ :=
  if x - ⌊x⌋ < 1 / 2 then ⌊x⌋
  else if 1 / 2 < x - ⌊x⌋ then ⌊x⌋ + 1
  else if Even ⌊x⌋ then ⌊x⌋ else ⌊x⌋ + 1

/-- The connectivity-ratio statistic of the source: relationships divided
by tables, rounded to two decimal places, with a divide-by-zero guard. -/
def connMetric (g : DiGraph) : ℚ :=
  if 0 < g.nodes.length then
    ((rndHalfEven ((g.edges.length : ℚ) / (g.nodes.length : ℚ) * 100) : ℚ) / 100)
  else 0

/-- Successors of a node in adjacency (edge insertion) order. -/
def successors (g : DiGraph) (u : String) : List String :=
  (g.edges.filter (fun e => e.parent == u)).map (fun e => e.child)

/-- Whether the directed graph holds an edge from u to v. -/
def hasEdgeB (g : DiGraph) (u v : String) : Bool :=
  g.edges.any (fun e => e.parent == u && e.child == v)

/-- Adjacency of the bidirectional closure BG: every neighbour in either
direction, enumerated in node order. -/
def bgSuccessors (g : DiGraph) (u : String) : List String :=
  g.nodes.filter (fun v => hasEdgeB g u v || hasEdgeB g v u)

/-- Depth-bounded simple-path enumeration in DFS preorder, the model of
nx.all_simple_paths with a cutoff: visited holds the reversed path so far,
u is the current node, and fuel bounds the remaining edges. -/
def simplePathsAux (adj : String → List String) (t : String) :
    Nat → List String → String → List (List String)
  | 0, visited, u => if u = t then [(u :: visited).reverse] else []
  | f + 1, visited, u =>
    (if u = t then [(u :: visited).reverse] else []) ++
      (adj u).flatMap (fun v =>
        if v ∈ u :: visited then []
        else simplePathsAux adj t f (u :: visited) v)

/-- The adjacency selected by the include-junction toggle: the
bidirectional closure BG when true, the strict directed graph otherwise. -/
def adjOf (g : DiGraph) (bidir : Bool) : String → List String :=
  if bidir then bgSuccessors g else successors g

/-- The list of simple paths the search discovers, in discovery order. -/
def discovered (g : DiGraph) (s t : String) (d : Nat) (bidir : Bool) :
    List (List String) :=
  simplePathsAux (adjOf g bidir) t d [] s

/-- Stable insertion of a path before the first strictly longer one. -/
def insertByLen (p : List String) : List (List String) → List (List String)
  | [] => [p]
  | q :: qs => if p.length < q.length then p :: q :: qs else q :: insertByLen p qs

/-- The stable sort by path length applied to the discovered paths,
modelling the in-place list sort keyed by len. -/
def sortByLen (l : List (List String)) : List (List String) :=
  l.foldl (fun acc p => insertByLen p acc) []

/-- The path search result: all simple paths within the depth bound,
sorted ascending by length with ties in discovery order. -/
def findPaths (g : DiGraph) (s t : String) (d : Nat) (bidir : Bool) :
    List (List String) :=
  sortByLen (discovered g s t d bidir)

/-- The outcome of one press of the find-paths button. The last two
constructors model the no-path exception handler of the source. -/
inductive PathOutcome where
  | sameTable : PathOutcome
  | found : List (List String) → Nat → PathOutcome
  | noPathWarning : Option Nat → PathOutcome
  | undirectedReport : Nat → PathOutcome
  | noConnection : PathOutcome
deriving DecidableEq, Repr

/-- The control flow of the path-finder button handler: reject equal
source and target, search the selected graph, display the first ten sorted
paths on success, otherwise warn and, in strict directed mode, look for
reverse-direction paths. -/
def pathQuery (g : DiGraph) (s t : String) (d : Nat) (includeJunction : Bool) :
    PathOutcome :=
  if s = t then PathOutcome.sameTable
  else if (discovered g s t d includeJunction).isEmpty then
    if includeJunction then PathOutcome.noPathWarning none
    else
      let rev := discovered g t s d false
      PathOutcome.noPathWarning (if rev.length > 0 then some rev.length else none)
  else
    PathOutcome.found ((findPaths g s t d includeJunction).take 10)
      (discovered g s t d includeJunction).length

/-- The minimum node count of an undirected simple path between two
tables, the model of nx.shortest_path over G.to_undirected. -/
def undirectedShortest (g : DiGraph) (s t : String) : Option Nat :=
  match sortByLen (simplePathsAux (bgSuccessors g) t g.nodes.length [] s) with
  | [] => none
  | p :: _ => some p.length

/-- The body of the NetworkXNoPath exception handler of the source: in
strict mode only a suggestion, otherwise the undirected-closure report of
the intermediate-hop count, or a no-connection error. -/
def noPathHandler (g : DiGraph) (s t : String) (includeJunction : Bool) :
    PathOutcome :=
  if !includeJunction then PathOutcome.noPathWarning none
  else
    match undirectedShortest g s t with
    | some len => PathOutcome.undirectedReport (len - 2)
    | none => PathOutcome.noConnection

/-- Whether an outcome comes from the exception-handler branch. -/
def isDeadBranch : PathOutcome → Bool
  | PathOutcome.undirectedReport _ => true
  | PathOutcome.noConnection => true
  | _ => false

/-- Input with two foreign keys between the same pair of tables. -/
def exT1 : List TableMeta :=
  [⟨"P", 1, []⟩, ⟨"C", 2, [⟨"p1", "P", "id"⟩, ⟨"p2", "P", "id"⟩]⟩]

/-- Input with a self-referencing foreign key. -/
def exT2 : List TableMeta :=
  [⟨"E", 2, [⟨"parent_id", "E", "id"⟩]⟩]

/-- Input whose junction-named table fails to decompose into core tables. -/
def exT3 : List TableMeta :=
  [⟨"AXB", 1, []⟩]

/-- Input with a foreign key to a table absent from the input set. -/
def exT5 : List TableMeta :=
  [⟨"C", 3, [⟨"pid", "P", "id"⟩]⟩]

/-- A five-table chain: the two endpoint tables are connected only through
three intermediate tables. -/
def exT6 : List TableMeta :=
  [⟨"A", 1, []⟩, ⟨"B", 1, [⟨"c", "c3", "id"⟩]⟩,
   ⟨"c1", 1, [⟨"a", "A", "id"⟩]⟩, ⟨"c2", 1, [⟨"c", "c1", "id"⟩]⟩,
   ⟨"c3", 1, [⟨"c", "c2", "id"⟩]⟩]

/-- The built graph of the chain input. -/
def exG6 : DiGraph := buildGraph exT6

/-- The scenario input of the spec: two core tables bridged by a junction
holding foreign keys to both. -/
def exT7 : List TableMeta :=
  [⟨"Products", 3, []⟩, ⟨"Brands", 2, []⟩,
   ⟨"ProductsXBrands", 2, [⟨"pid", "Products", "id"⟩, ⟨"bid", "Brands", "id"⟩]⟩]

/-- Input with three tables and a single relationship. -/
def exT9 : List TableMeta :=
  [⟨"T1", 1, []⟩, ⟨"T2", 1, []⟩, ⟨"T3", 1, [⟨"f", "T1", "id"⟩]⟩]

/-- The built graph with three nodes and one edge. -/
def exG9 : DiGraph := buildGraph exT9

/-- Input with twelve two-hop paths between a source and a target. -/
def exT10 : List TableMeta :=
  [⟨"S", 1, []⟩,
   ⟨"T", 1, [⟨"m1", "M1", "id"⟩, ⟨"m2", "M2", "id"⟩, ⟨"m3", "M3", "id"⟩,
             ⟨"m4", "M4", "id"⟩, ⟨"m5", "M5", "id"⟩, ⟨"m6", "M6", "id"⟩,
             ⟨"m7", "M7", "id"⟩, ⟨"m8", "M8", "id"⟩, ⟨"m9", "M9", "id"⟩,
             ⟨"m10", "M10", "id"⟩, ⟨"m11", "M11", "id"⟩, ⟨"m12", "M12", "id"⟩]⟩,
   ⟨"M1", 1, [⟨"s", "S", "id"⟩]⟩, ⟨"M2", 1, [⟨"s", "S", "id"⟩]⟩,
   ⟨"M3", 1, [⟨"s", "S", "id"⟩]⟩, ⟨"M4", 1, [⟨"s", "S", "id"⟩]⟩,
   ⟨"M5", 1, [⟨"s", "S", "id"⟩]⟩, ⟨"M6", 1, [⟨"s", "S", "id"⟩]⟩,
   ⟨"M7", 1, [⟨"s", "S", "id"⟩]⟩, ⟨"M8", 1, [⟨"s", "S", "id"⟩]⟩,
   ⟨"M9", 1, [⟨"s", "S", "id"⟩]⟩, ⟨"M10", 1, [⟨"s", "S", "id"⟩]⟩,
   ⟨"M11", 1, [⟨"s", "S", "id"⟩]⟩, ⟨"M12", 1, [⟨"s", "S", "id"⟩]⟩]

/-- The built graph with twelve parallel two-hop routes. -/
def exG10 : DiGraph := buildGraph exT10

/-- The ten paths the display cap keeps for the twelve-route graph. -/
def exShown10 : List (List String) :=
  [["S", "M1", "T"], ["S", "M2", "T"], ["S", "M3", "T"], ["S", "M4", "T"],
   ["S", "M5", "T"], ["S", "M6", "T"], ["S", "M7", "T"], ["S", "M8", "T"],
   ["S", "M9", "T"], ["S", "M10", "T"]]

/-! ### Key lemmas about the DiGraph edge insertion -/

theorem sameKey_iff {a b : Edge} :
    sameKey a b = true ↔ a.parent = b.parent ∧ a.child = b.child := by
  simp [sameKey]

theorem sameKey_self (a : Edge) : sameKey a a = true := by
  simp [sameKey]

theorem sameKey_symm {a b : Edge} (h : sameKey a b = true) : sameKey b a = true := by
  rw [sameKey_iff] at h ⊢
  exact ⟨h.1.symm, h.2.symm⟩

theorem sameKey_trans {a b c : Edge} (h1 : sameKey a b = true)
    (h2 : sameKey b c = true) : sameKey a c = true := by
  rw [sameKey_iff] at h1 h2 ⊢
  exact ⟨h1.1.trans h2.1, h1.2.trans h2.2⟩

theorem sameKey_false_of_not {a b : Edge} (h : ¬ sameKey a b = true) :
    sameKey a b = false := by
  cases hab : sameKey a b
  · rfl
  · exact absurd hab h

theorem hasKey_iff {es : List Edge} {e : Edge} :
    hasKey es e = true ↔ ∃ e2 ∈ es, sameKey e e2 = true := by
  simp [hasKey, List.any_eq_true]

theorem hasKey_insertEdge_self (es : List Edge) (e : Edge) :
    hasKey (insertEdge es e) e = true := by
  unfold insertEdge
  split
  · rename_i h
    rw [hasKey_iff] at h ⊢
    obtain ⟨e2, he2, hk⟩ := h
    refine ⟨e, ?_, sameKey_self e⟩
    rw [List.mem_map]
    exact ⟨e2, he2, by rw [if_pos hk]⟩
  · rw [hasKey_iff]
    exact ⟨e, by simp, sameKey_self e⟩

theorem hasKey_insertEdge_mono {es : List Edge} {x : Edge} (e : Edge)
    (h : hasKey es x = true) : hasKey (insertEdge es e) x = true := by
  unfold insertEdge
  split
  · rw [hasKey_iff] at h ⊢
    obtain ⟨e2, he2, hk⟩ := h
    by_cases hrep : sameKey e e2 = true
    · refine ⟨e, ?_, sameKey_trans hk (sameKey_symm hrep)⟩
      rw [List.mem_map]
      exact ⟨e2, he2, by rw [if_pos hrep]⟩
    · refine ⟨e2, ?_, hk⟩
      rw [List.mem_map]
      exact ⟨e2, he2, by rw [if_neg hrep]⟩
  · rw [hasKey_iff] at h ⊢
    obtain ⟨e2, he2, hk⟩ := h
    exact ⟨e2, List.mem_append_left _ he2, hk⟩

theorem hasKey_foldl_mono {l : List Edge} {acc : List Edge} {x : Edge}
    (h : hasKey acc x = true) :
    hasKey (l.foldl insertEdge acc) x = true := by
  induction l generalizing acc with
  | nil => exact h
  | cons e l ih => exact ih (hasKey_insertEdge_mono e h)

theorem hasKey_foldl_of_mem {l : List Edge} {acc : List Edge} {e : Edge}
    (h : e ∈ l) : hasKey (l.foldl insertEdge acc) e = true := by
  induction l generalizing acc with
  | nil => cases h
  | cons a l ih =>
    rcases List.mem_cons.mp h with h | h
    · subst h
      rw [List.foldl_cons]
      exact hasKey_foldl_mono (hasKey_insertEdge_self acc e)
    · exact ih h

theorem mem_insertEdge {es : List Edge} {e x : Edge}
    (h : x ∈ insertEdge es e) : x ∈ es ∨ x = e := by
  unfold insertEdge at h
  split at h
  · rw [List.mem_map] at h
    obtain ⟨e2, he2, hx⟩ := h
    by_cases hrep : sameKey e e2 = true
    · rw [if_pos hrep] at hx
      exact Or.inr hx.symm
    · rw [if_neg hrep] at hx
      exact Or.inl (hx ▸ he2)
  · rcases List.mem_append.mp h with h | h
    · exact Or.inl h
    · exact Or.inr (List.mem_singleton.mp h)

theorem mem_foldl_insertEdge {l : List Edge} {acc : List Edge} {x : Edge}
    (h : x ∈ l.foldl insertEdge acc) : x ∈ acc ∨ x ∈ l := by
  induction l generalizing acc with
  | nil => exact Or.inl h
  | cons e l ih =>
    rcases ih h with h2 | h2
    · rcases mem_insertEdge h2 with h3 | h3
      · exact Or.inl h3
      · exact Or.inr (h3 ▸ List.mem_cons_self e l)
    · exact Or.inr (List.mem_cons_of_mem e h2)

theorem pairwise_insertEdge {es : List Edge} {e : Edge}
    (h : List.Pairwise (fun a b => sameKey a b = false) es) :
    List.Pairwise (fun a b => sameKey a b = false) (insertEdge es e) := by
  unfold insertEdge
  split
  · rw [List.pairwise_map]
    refine h.imp_of_mem ?_
    intro a b _ _ hab
    by_cases ha : sameKey e a = true <;> by_cases hb : sameKey e b = true
    · rw [if_pos ha, if_pos hb]
      exact absurd (sameKey_trans (sameKey_symm ha) hb) (by rw [hab]; simp)
    · rw [if_pos ha, if_neg hb]
      exact sameKey_false_of_not hb
    · rw [if_neg ha, if_pos hb]
      apply sameKey_false_of_not
      intro hk
      exact ha (sameKey_symm hk)
    · rw [if_neg ha, if_neg hb]
      exact hab
  · rename_i hnk
    rw [List.pairwise_append]
    refine ⟨h, List.pairwise_singleton _ _, ?_⟩
    intro a ha b hb
    rw [List.mem_singleton] at hb
    subst hb
    apply sameKey_false_of_not
    intro hk
    apply hnk
    rw [hasKey_iff]
    exact ⟨a, ha, sameKey_symm hk⟩

theorem pairwise_foldl_insertEdge {l : List Edge} {acc : List Edge}
    (h : List.Pairwise (fun a b => sameKey a b = false) acc) :
    List.Pairwise (fun a b => sameKey a b = false) (l.foldl insertEdge acc) := by
  induction l generalizing acc with
  | nil => exact h
  | cons e l ih => exact ih (pairwise_insertEdge h)

theorem foldl_insertEdge_eq_append {l acc : List Edge}
    (h : List.Pairwise (fun a b => sameKey a b = false) (acc ++ l)) :
    l.foldl insertEdge acc = acc ++ l := by
  induction l generalizing acc with
  | nil => simp
  | cons e l ih =>
    have hins : insertEdge acc e = acc ++ [e] := by
      unfold insertEdge
      rw [if_neg]
      intro hk
      rw [hasKey_iff] at hk
      obtain ⟨a, ha, hak⟩ := hk
      have := (List.pairwise_append.mp h).2.2 a ha e (List.mem_cons_self e l)
      rw [sameKey_symm hak] at this
      cases this
    have hre : acc ++ e :: l = (acc ++ [e]) ++ l := by simp
    rw [List.foldl_cons, hins, ih (by rw [← hre]; exact h), ← hre]

/-! ### The build loop in terms of the flattened foreign-key list -/

theorem edges_addNode (g : DiGraph) (n : String) :
    (addNode g n).edges = g.edges := by
  unfold addNode
  split <;> rfl

theorem edges_addEdge (g : DiGraph) (e : Edge) :
    (addEdge g e).edges = insertEdge g.edges e := by
  simp [addEdge, edges_addNode]

theorem edges_foldl_addEdge (es : List Edge) (g : DiGraph) :
    (es.foldl addEdge g).edges = es.foldl insertEdge g.edges := by
  induction es generalizing g with
  | nil => rfl
  | cons e es ih => rw [List.foldl_cons, List.foldl_cons, ih, edges_addEdge]

theorem edges_addTable (g : DiGraph) (tb : TableMeta) :
    (addTable g tb).edges = (tableEdges tb).foldl insertEdge g.edges := by
  unfold addTable
  rw [edges_foldl_addEdge, edges_addNode]

theorem edges_foldl_addTable (tables : List TableMeta) (g : DiGraph) :
    (tables.foldl addTable g).edges = (allFKEdges tables).foldl insertEdge g.edges := by
  induction tables generalizing g with
  | nil => rfl
  | cons tb tables ih =>
    rw [List.foldl_cons, ih, edges_addTable]
    simp only [allFKEdges, List.flatMap_cons, List.foldl_append]

theorem edges_buildGraph (tables : List TableMeta) :
    (buildGraph tables).edges = (allFKEdges tables).foldl insertEdge [] := by
  unfold buildGraph
  rw [edges_foldl_addTable]

/-! ### Node membership under the build loop -/

theorem mem_nodes_addNode {g : DiGraph} {m : String} (n : String)
    (h : m ∈ g.nodes) : m ∈ (addNode g n).nodes := by
  unfold addNode
  split
  · exact h
  · exact List.mem_append_left _ h

theorem self_mem_nodes_addNode (g : DiGraph) (n : String) :
    n ∈ (addNode g n).nodes := by
  unfold addNode
  split
  · assumption
  · simp

theorem mem_nodes_addEdge {g : DiGraph} {m : String} (e : Edge)
    (h : m ∈ g.nodes) : m ∈ (addEdge g e).nodes := by
  simp only [addEdge]
  exact mem_nodes_addNode _ (mem_nodes_addNode _ h)

theorem parent_mem_nodes_addEdge (g : DiGraph) (e : Edge) :
    e.parent ∈ (addEdge g e).nodes := by
  simp only [addEdge]
  exact mem_nodes_addNode _ (self_mem_nodes_addNode g e.parent)

theorem child_mem_nodes_addEdge (g : DiGraph) (e : Edge) :
    e.child ∈ (addEdge g e).nodes := by
  simp only [addEdge]
  exact self_mem_nodes_addNode _ e.child

theorem mem_nodes_foldl_addEdge {g : DiGraph} {m : String} (es : List Edge)
    (h : m ∈ g.nodes) : m ∈ (es.foldl addEdge g).nodes := by
  induction es generalizing g with
  | nil => exact h
  | cons e es ih => exact ih (mem_nodes_addEdge e h)

theorem endpoint_mem_nodes_foldl_addEdge {es : List Edge} {e : Edge}
    (g : DiGraph) (h : e ∈ es) :
    e.parent ∈ (es.foldl addEdge g).nodes ∧ e.child ∈ (es.foldl addEdge g).nodes := by
  induction es generalizing g with
  | nil => cases h
  | cons a es ih =>
    rcases List.mem_cons.mp h with h | h
    · subst h
      rw [List.foldl_cons]
      exact ⟨mem_nodes_foldl_addEdge es (parent_mem_nodes_addEdge g e),
        mem_nodes_foldl_addEdge es (child_mem_nodes_addEdge g e)⟩
    · exact ih _ h

theorem mem_nodes_addTable {g : DiGraph} {m : String} (tb : TableMeta)
    (h : m ∈ g.nodes) : m ∈ (addTable g tb).nodes := by
  unfold addTable
  exact mem_nodes_foldl_addEdge _ (mem_nodes_addNode _ h)

theorem name_mem_nodes_addTable (g : DiGraph) (tb : TableMeta) :
    tb.name ∈ (addTable g tb).nodes := by
  unfold addTable
  exact mem_nodes_foldl_addEdge _ (self_mem_nodes_addNode g tb.name)

theorem mem_nodes_foldl_addTable {g : DiGraph} {m : String}
    (tables : List TableMeta) (h : m ∈ g.nodes) :
    m ∈ (tables.foldl addTable g).nodes := by
  induction tables generalizing g with
  | nil => exact h
  | cons tb tables ih => exact ih (mem_nodes_addTable tb h)

theorem fk_nodes_buildGraph {tables : List TableMeta} {tb : TableMeta} {fk : FK}
    (h1 : tb ∈ tables) (h2 : fk ∈ tb.fks) :
    fk.ref_table ∈ (buildGraph tables).nodes ∧ tb.name ∈ (buildGraph tables).nodes := by
  obtain ⟨pre, post, rfl⟩ := List.append_of_mem h1
  unfold buildGraph
  rw [List.foldl_append, List.foldl_cons]
  have he : (⟨fk.ref_table, tb.name, fk.fk_column, fk.ref_column⟩ : Edge) ∈ tableEdges tb := by
    rw [tableEdges, List.mem_map]
    exact ⟨fk, h2, rfl⟩
  have hp := endpoint_mem_nodes_foldl_addEdge
    (addNode (pre.foldl addTable ⟨[], []⟩) tb.name) he
  constructor
  · exact mem_nodes_foldl_addTable post hp.1
  · exact mem_nodes_foldl_addTable post (name_mem_nodes_addTable _ tb)

/-! ### The stable sort by path length -/

theorem mem_insertByLen {p q : List String} {l : List (List String)} :
    q ∈ insertByLen p l ↔ q = p ∨ q ∈ l := by
  induction l with
  | nil => simp [insertByLen]
  | cons r l ih =>
    unfold insertByLen
    split <;> (simp only [List.mem_cons, ih]; try tauto)

theorem pairwise_insertByLen {p : List String} {l : List (List String)}
    (h : List.Pairwise (fun a b => a.length ≤ b.length) l) :
    List.Pairwise (fun a b => a.length ≤ b.length) (insertByLen p l) := by
  induction l with
  | nil => simp [insertByLen]
  | cons r l ih =>
    unfold insertByLen
    rw [List.pairwise_cons] at h
    split
    · rename_i hlt
      rw [List.pairwise_cons]
      refine ⟨?_, List.pairwise_cons.mpr h⟩
      intro b hb
      rcases List.mem_cons.mp hb with hb | hb
      · exact hb ▸ Nat.le_of_lt hlt
      · exact Nat.le_trans (Nat.le_of_lt hlt) (h.1 b hb)
    · rename_i hge
      rw [List.pairwise_cons]
      refine ⟨?_, ih h.2⟩
      intro b hb
      rcases mem_insertByLen.mp hb with hb | hb
      · exact hb ▸ Nat.le_of_not_lt hge
      · exact h.1 b hb

theorem filter_insertByLen {p : List String} {l : List (List String)} (n : Nat)
    (h : List.Pairwise (fun a b => a.length ≤ b.length) l) :
    (insertByLen p l).filter (fun r => r.length == n) =
      if p.length = n then l.filter (fun r => r.length == n) ++ [p]
      else l.filter (fun r => r.length == n) := by
  induction l with
  | nil =>
    simp only [insertByLen, List.filter_nil]
    by_cases hp : p.length = n
    · rw [if_pos hp]
      simp [hp]
    · rw [if_neg hp]
      simp [hp]
  | cons r l ih =>
    rw [List.pairwise_cons] at h
    unfold insertByLen
    split
    · rename_i hlt
      by_cases hp : p.length = n
      · rw [if_pos hp]
        have hr : ¬ r.length = n := by omega
        have hl : ∀ b ∈ l, ¬ b.length = n := by
          intro b hb
          have := h.1 b hb
          omega
        have hfl : l.filter (fun q => q.length == n) = [] := by
          rw [List.filter_eq_nil_iff]
          intro b hb
          simp [hl b hb]
        simp [hp, hr, hfl]
      · rw [if_neg hp]
        simp [hp]
    · rename_i hge
      by_cases hp : p.length = n <;> by_cases hr : r.length = n <;>
        simp [List.filter_cons, hp, hr, ih h.2]

theorem sortByLen_foldl_spec (l : List (List String)) :
    ∀ acc : List (List String),
      List.Pairwise (fun a b => a.length ≤ b.length) acc →
      List.Pairwise (fun a b => a.length ≤ b.length)
          (l.foldl (fun acc p => insertByLen p acc) acc) ∧
        ∀ n, (l.foldl (fun acc p => insertByLen p acc) acc).filter
              (fun r => r.length == n) =
            acc.filter (fun r => r.length == n) ++ l.filter (fun r => r.length == n) := by
  induction l with
  | nil =>
    intro acc hacc
    exact ⟨hacc, fun n => by simp⟩
  | cons p l ih =>
    intro acc hacc
    obtain ⟨hs, hf⟩ := ih (insertByLen p acc) (pairwise_insertByLen hacc)
    refine ⟨hs, fun n => ?_⟩
    rw [List.foldl_cons, hf n, filter_insertByLen n hacc]
    by_cases hp : p.length = n
    · rw [if_pos hp]
      simp [List.filter_cons, hp]
    · rw [if_neg hp]
      simp [List.filter_cons, hp]

theorem sortByLen_sorted (l : List (List String)) :
    List.Pairwise (fun a b => a.length ≤ b.length) (sortByLen l) :=
  (sortByLen_foldl_spec l [] (List.Pairwise.nil)).1

theorem sortByLen_filter (l : List (List String)) (n : Nat) :
    (sortByLen l).filter (fun r => r.length == n) =
      l.filter (fun r => r.length == n) := by
  have h := (sortByLen_foldl_spec l [] (List.Pairwise.nil)).2 n
  simpa [sortByLen] using h

theorem mem_sortByLen {l : List (List String)} {p : List String} :
    p ∈ sortByLen l ↔ p ∈ l := by
  constructor <;> intro h
  · have : p ∈ (sortByLen l).filter (fun r => r.length == p.length) := by
      rw [List.mem_filter]
      exact ⟨h, by simp⟩
    rw [sortByLen_filter] at this
    exact (List.mem_filter.mp this).1
  · have : p ∈ l.filter (fun r => r.length == p.length) := by
      rw [List.mem_filter]
      exact ⟨h, by simp⟩
    rw [← sortByLen_filter] at this
    exact (List.mem_filter.mp this).1

/-! ### Soundness of the bounded simple-path enumeration -/

theorem simplePathsAux_sound (adj : String → List String) (t : String) :
    ∀ (f : Nat) (visited : List String) (u : String),
      visited.Nodup → u ∉ visited →
      ∀ p ∈ simplePathsAux adj t f visited u,
        p.Nodup ∧ p.length ≤ f + visited.length + 1 := by
  intro f
  induction f with
  | zero =>
    intro visited u hnd hu p hp
    simp only [simplePathsAux] at hp
    split at hp
    · rw [List.mem_singleton] at hp
      subst hp
      constructor
      · rw [List.nodup_reverse]
        exact List.nodup_cons.mpr ⟨hu, hnd⟩
      · simp
    · cases hp
  | succ f ih =>
    intro visited u hnd hu p hp
    simp only [simplePathsAux] at hp
    rw [List.mem_append] at hp
    rcases hp with hp | hp
    · split at hp
      · rw [List.mem_singleton] at hp
        subst hp
        constructor
        · rw [List.nodup_reverse]
          exact List.nodup_cons.mpr ⟨hu, hnd⟩
        · simp only [List.length_reverse, List.length_cons]
          omega
      · cases hp
    · rw [List.mem_flatMap] at hp
      obtain ⟨v, hv, hp⟩ := hp
      split at hp
      · cases hp
      · rename_i hvn
        have hnd2 : (u :: visited).Nodup := List.nodup_cons.mpr ⟨hu, hnd⟩
        have hv2 : v ∉ u :: visited := hvn
        obtain ⟨h1, h2⟩ := ih (u :: visited) v hnd2 hv2 p hp
        refine ⟨h1, ?_⟩
        simp only [List.length_cons] at h2
        omega

/-! ### The rounding step of the connectivity metric -/

theorem abs_rndHalfEven_sub (x : ℚ) : |(rndHalfEven x : ℚ) - x| ≤ 1 / 2 := by
  have h1 : ((⌊x⌋ : ℚ)) ≤ x := Int.floor_le x
  have h2 : x < (⌊x⌋ : ℚ) + 1 := Int.lt_floor_add_one x
  unfold rndHalfEven
  split
  · rename_i hc
    rw [abs_le]
    constructor <;> linarith
  · split
    · rename_i hc hc2
      push_cast
      rw [abs_le]
      constructor <;> linarith
    · rename_i hc hc2
      have heq : x - (⌊x⌋ : ℚ) = 1 / 2 := by linarith
      split
      · rw [abs_le]
        constructor <;> linarith
      · push_cast
        rw [abs_le]
        constructor <;> linarith

/-! ### Helpers for the classification and many-to-many analysis -/

theorem flatMap_eq_nil_of_forall {α β : Type} (l : List α) (f : α → List β)
    (h : ∀ a ∈ l, f a = []) : l.flatMap f = [] := by
  induction l with
  | nil => rfl
  | cons a l ih =>
    rw [List.flatMap_cons, h a (List.mem_cons_self a l), List.nil_append]
    exact ih (fun b hb => h b (List.mem_cons_of_mem a hb))

theorem junctionRels_filter_eq_nil {core : List String} {name : String}
    (h3 : decomposePair core name = none) (jts : List String) :
    ((jts.flatMap (fun jt =>
        match decomposePair core jt with
        | some (e1, e2) => ([⟨e1, jt, e2⟩, ⟨e2, jt, e1⟩] : List JRel)
        | none => [])).filter (fun r => r.junction == name)) = [] := by
  induction jts with
  | nil => rfl
  | cons jt jts ih =>
    rw [List.flatMap_cons, List.filter_append, ih, List.append_nil]
    by_cases hj : jt = name
    · subst hj
      rw [h3]
      rfl
    · cases hd : decomposePair core jt with
      | none => rfl
      | some pr =>
        obtain ⟨e1, e2⟩ := pr
        simp [hj]

/-! ### Claim theorems -/

/-- C1 counterexample: the input exT1 declares two foreign keys between
the same (parent, child) pair, but the built DiGraph holds a single edge,
carrying the columns of the second foreign key; the claimed preservation
of distinct edges fails. -/
theorem buildGraph_parallel_fks_collapse_cex :
    (allFKEdges exT1).length = 2 ∧
    (buildGraph exT1).edges = [⟨"P", "C", "p2", "id"⟩] := by decide

/-- C1 (amended): graph build expands each foreign key with
parent = referenced table and child = owning table, but edges are keyed by
the (parent, child) pair: the built edge list has pairwise distinct keys,
every foreign key has an edge with its key present, and every stored edge
is verbatim one of the foreign-key edges (so that multiple foreign keys
over the same table pair collapse into one edge). -/
theorem buildGraph_edge_key_spec (tables : List TableMeta) :
    List.Pairwise (fun a b => sameKey a b = false) (buildGraph tables).edges ∧
    (∀ e ∈ allFKEdges tables, hasKey (buildGraph tables).edges e = true) ∧
    (∀ e ∈ (buildGraph tables).edges, e ∈ allFKEdges tables) := by
  rw [edges_buildGraph]
  refine ⟨pairwise_foldl_insertEdge List.Pairwise.nil, ?_, ?_⟩
  · intro e he
    exact hasKey_foldl_of_mem he
  · intro e he
    rcases mem_foldl_insertEdge he with h | h
    · cases h
    · exact h

/-- C1 witness: the first foreign key of exT1 is represented by an edge
with its (parent, child) key in the built graph. -/
theorem buildGraph_edge_key_spec_witness :
    (⟨"P", "C", "p1", "id"⟩ : Edge) ∈ allFKEdges exT1 ∧
    hasKey (buildGraph exT1).edges ⟨"P", "C", "p1", "id"⟩ = true :=
  ⟨by decide, (buildGraph_edge_key_spec exT1).2.1 _ (by decide)⟩

/-- C2 counterexample: with two foreign keys from C to P, the accumulated
counters give 2 for table P while the built graph degree of P is 1, so the
claimed equality fails. -/
theorem fk_counts_vs_degree_cex :
    ¬ (fkIn exT1 "P" + fkOut exT1 "P" = degree (buildGraph exT1) "P") := by
  decide

/-- C2 (amended): when no two foreign keys share the same (parent, child)
pair, the accumulated fk counters equal the DiGraph degree, that is the
count of stored edges touching the table with a self-loop counted twice;
with duplicated pairs the counters exceed the degree because parallel
edges collapse. -/
theorem fk_counts_eq_degree_of_distinct_pairs (tables : List TableMeta)
    (h : List.Pairwise (fun a b => sameKey a b = false) (allFKEdges tables))
    (T : String) :
    fkIn tables T + fkOut tables T = degree (buildGraph tables) T := by
  have he : (buildGraph tables).edges = allFKEdges tables := by
    rw [edges_buildGraph]
    have h2 := @foldl_insertEdge_eq_append (allFKEdges tables) []
      (by simpa using h)
    simpa using h2
  unfold degree fkIn fkOut
  rw [he]

/-- C2 witness: on the self-referencing input exT2 the keys are distinct
and the counters equal the degree (both count the self-loop twice). -/
theorem fk_counts_eq_degree_witness :
    List.Pairwise (fun a b => sameKey a b = false) (allFKEdges exT2) ∧
    fkIn exT2 "E" + fkOut exT2 "E" = degree (buildGraph exT2) "E" :=
  ⟨by decide, fk_counts_eq_degree_of_distinct_pairs exT2 (by decide) "E"⟩

/-- C5 counterexample: the only table C of exT5 has a foreign key to the
absent table P; the build does not skip the edge: the edge is stored and P
is implicitly created as a node. -/
theorem missing_ref_table_edge_added_cex :
    (buildGraph exT5).edges = [⟨"P", "C", "pid", "id"⟩] ∧
    "P" ∉ tableNames exT5 ∧ "P" ∈ (buildGraph exT5).nodes := by decide

/-- C5 (amended): every foreign key, including one whose referenced table
is absent from the input set, contributes an edge with its (parent, child)
key to the built graph, and both endpoints appear as nodes (the missing
referenced table is implicitly created); no warning path exists and
analysis continues. -/
theorem fk_edge_always_added {tables : List TableMeta} {tb : TableMeta} {fk : FK}
    (h1 : tb ∈ tables) (h2 : fk ∈ tb.fks) :
    hasKey (buildGraph tables).edges
        ⟨fk.ref_table, tb.name, fk.fk_column, fk.ref_column⟩ = true ∧
    fk.ref_table ∈ (buildGraph tables).nodes ∧
    tb.name ∈ (buildGraph tables).nodes := by
  have hmem : (⟨fk.ref_table, tb.name, fk.fk_column, fk.ref_column⟩ : Edge)
      ∈ allFKEdges tables := by
    rw [allFKEdges, List.mem_flatMap]
    refine ⟨tb, h1, ?_⟩
    rw [tableEdges, List.mem_map]
    exact ⟨fk, h2, rfl⟩
  refine ⟨?_, (fk_nodes_buildGraph h1 h2).1, (fk_nodes_buildGraph h1 h2).2⟩
  rw [edges_buildGraph]
  exact hasKey_foldl_of_mem hmem

/-- C5 witness: applied to exT5, whose single foreign key references the
absent table P. -/
theorem fk_edge_always_added_witness :
    (⟨"C", 3, [⟨"pid", "P", "id"⟩]⟩ : TableMeta) ∈ exT5 ∧
    (⟨"pid", "P", "id"⟩ : FK) ∈ (⟨"C", 3, [⟨"pid", "P", "id"⟩]⟩ : TableMeta).fks ∧
    (hasKey (buildGraph exT5).edges ⟨"P", "C", "pid", "id"⟩ = true ∧
      "P" ∈ (buildGraph exT5).nodes ∧ "C" ∈ (buildGraph exT5).nodes) :=
  ⟨by decide, by decide,
    @fk_edge_always_added exT5 ⟨"C", 3, [⟨"pid", "P", "id"⟩]⟩ ⟨"pid", "P", "id"⟩
      (by decide) (by decide)⟩

/-- C3 counterexample: the table AXB contains the marker and its
decomposition fails (A and B are not core tables), yet it is classified as
junction and not as core, contradicting the claimed fallback to core. -/
theorem junction_decomp_failure_not_core_cex :
    "AXB" ∈ junctionTables exT3 ∧ "AXB" ∉ coreTables exT3 ∧
    decomposePair (coreTables exT3) "AXB" = none := by decide

/-- C3 (amended): a table whose name contains the marker is always
classified as junction and never as core, regardless of decomposition; a
failed decomposition is non-fatal and only means the table contributes no
junction relationship record. -/
theorem junction_marker_classification (tables : List TableMeta) (nm : String)
    (h1 : nm ∈ tableNames tables) (h2 : hasMarker nm = true)
    (h3 : decomposePair (coreTables tables) nm = none) :
    nm ∈ junctionTables tables ∧ nm ∉ coreTables tables ∧
    (junctionRels tables).filter (fun r => r.junction == nm) = [] := by
  refine ⟨?_, ?_, ?_⟩
  · rw [junctionTables, List.mem_filter]
    exact ⟨h1, h2⟩
  · intro hc
    rw [coreTables, List.mem_filter] at hc
    simp [h2] at hc
  · exact junctionRels_filter_eq_nil h3 (junctionTables tables)

/-- C3 witness: applied to the failing-decomposition input exT3. -/
theorem junction_marker_classification_witness :
    "AXB" ∈ tableNames exT3 ∧ hasMarker "AXB" = true ∧
    ("AXB" ∈ junctionTables exT3 ∧ "AXB" ∉ coreTables exT3 ∧
      (junctionRels exT3).filter (fun r => r.junction == "AXB") = []) :=
  ⟨by decide, by decide,
    junction_marker_classification exT3 "AXB" (by decide) (by decide) (by decide)⟩

/-- C7: the many-to-many analysis reports nothing for an entity no
junction decomposes to include, and a reported row is labelled Complete
exactly when the junction holds a foreign key referencing the selected
entity and one referencing a partner entity, Partial otherwise. -/
theorem m2m_partners_complete_iff (tables : List TableMeta) (selected : String) :
    ((∀ jt ∈ junctionTables tables, selected ∉ splitX jt) →
      m2mEntries tables selected = []) ∧
    (∀ m ∈ m2mEntries tables selected,
      (m.rel = "Complete" ∨ m.rel = "Partial") ∧
      (m.rel = "Complete" ↔
        ((fksOf tables m.junction).any (fun fk => fk.ref_table == selected) = true ∧
          (fksOf tables m.junction).any
            (fun fk => m.related.contains fk.ref_table) = true))) := by
  constructor
  · intro h
    unfold m2mEntries
    split
    · rfl
    · apply flatMap_eq_nil_of_forall
      intro jt hjt
      unfold m2mBlock
      rw [if_neg (h jt hjt)]
  · intro m hm
    unfold m2mEntries at hm
    split at hm
    · cases hm
    · rw [List.mem_flatMap] at hm
      obtain ⟨jt, hjt, hblk⟩ := hm
      simp only [m2mBlock] at hblk
      split at hblk
      · split at hblk
        · cases hblk
        · split at hblk
          · rw [List.mem_singleton] at hblk
            subst hblk
            cases hA : (fksOf tables jt).any (fun fk => fk.ref_table == selected) <;>
              cases hB : (fksOf tables jt).any (fun fk =>
                (((splitX jt).filter
                  (fun p => !(p == "") && !(p == selected))).contains fk.ref_table)) <;>
              simp +decide [hA, hB]
          · cases hblk
      · cases hblk

/-- C7 witness: the spec scenario exT7 reports the Brands partner of
Products as Complete, and an entity outside every junction decomposition
gets an empty report. -/
theorem m2m_partners_complete_iff_witness :
    m2mEntries exT7 "Taxes" = [] ∧
    (((⟨"ProductsXBrands", ["Brands"], "Complete"⟩ : M2M).rel = "Complete" ∨
      (⟨"ProductsXBrands", ["Brands"], "Complete"⟩ : M2M).rel = "Partial") ∧
      ((⟨"ProductsXBrands", ["Brands"], "Complete"⟩ : M2M).rel = "Complete" ↔
        ((fksOf exT7 "ProductsXBrands").any
            (fun fk => fk.ref_table == "Products") = true ∧
          (fksOf exT7 "ProductsXBrands").any
            (fun fk => (["Brands"] : List String).contains fk.ref_table) = true))) :=
  ⟨(m2m_partners_complete_iff exT7 "Taxes").1 (by decide),
    (m2m_partners_complete_iff exT7 "Products").2
      ⟨"ProductsXBrands", ["Brands"], "Complete"⟩ (by decide)⟩

/-- C4: for every source, target, depth bound and graph mode, the path
search returns only simple paths (no repeated table), none longer than
maxDepth hops (node count at most maxDepth plus one), and the result is
sorted ascending by hop count with ties keeping discovery order: the
result filtered at each length equals the discovery-ordered enumeration
filtered at that length. -/
theorem findPaths_simple_bounded_sorted (g : DiGraph) (s t : String) (d : Nat)
    (b : Bool) :
    (∀ p ∈ findPaths g s t d b, p.Nodup ∧ p.length ≤ d + 1) ∧
    List.Pairwise (fun p q => p.length ≤ q.length) (findPaths g s t d b) ∧
    (∀ n, (findPaths g s t d b).filter (fun p => p.length == n) =
      (discovered g s t d b).filter (fun p => p.length == n)) := by
  refine ⟨?_, ?_, ?_⟩
  · intro p hp
    rw [findPaths, mem_sortByLen] at hp
    have h := simplePathsAux_sound (adjOf g b) t d [] s List.nodup_nil
      (List.not_mem_nil s) p hp
    exact ⟨h.1, by have := h.2; simpa using this⟩
  · rw [findPaths]
    exact sortByLen_sorted _
  · intro n
    rw [findPaths]
    exact sortByLen_filter _ n

/-- C4 witness: on the twelve-route graph, membership of a discovered path
gives simplicity and the depth bound, and the result is sorted. -/
theorem findPaths_simple_bounded_sorted_witness :
    ((["S", "M1", "T"] : List String).Nodup ∧
      (["S", "M1", "T"] : List String).length ≤ 2 + 1) ∧
    List.Pairwise (fun p q => p.length ≤ q.length)
      (findPaths exG10 "S" "T" 2 false) :=
  ⟨(findPaths_simple_bounded_sorted exG10 "S" "T" 2 false).1 _ (by decide),
    (findPaths_simple_bounded_sorted exG10 "S" "T" 2 false).2.1⟩

/-- C8: a path query whose source equals its target is rejected with the
distinct same-table outcome before any search executes. -/
theorem pathQuery_same_table_rejected (g : DiGraph) (A : String) (d : Nat)
    (b : Bool) : pathQuery g A A d b = PathOutcome.sameTable := by
  simp [pathQuery]

/-- C10: whenever a path query succeeds, the rendered list is exactly the
first ten entries of the sorted path list, hence never more than ten paths
are shown even when the search discovered more. -/
theorem pathQuery_found_take_ten (g : DiGraph) (s t : String) (d : Nat)
    (b : Bool) (shown : List (List String)) (total : Nat)
    (h : pathQuery g s t d b = PathOutcome.found shown total) :
    shown = (findPaths g s t d b).take 10 ∧ shown.length ≤ 10 := by
  unfold pathQuery at h
  split at h
  · simp at h
  · split at h
    · split at h
      · simp at h
      · simp at h
    · injection h with h1 h2
      refine ⟨h1.symm, ?_⟩
      rw [← h1, List.length_take]
      exact Nat.min_le_left _ _

/-- C10 witness: the twelve discovered routes collapse to a ten-entry
display list, the prefix of the sorted result. -/
theorem pathQuery_found_take_ten_witness :
    pathQuery exG10 "S" "T" 2 false = PathOutcome.found exShown10 12 ∧
    (exShown10 = (findPaths exG10 "S" "T" 2 false).take 10 ∧
      exShown10.length ≤ 10) :=
  ⟨by decide,
    pathQuery_found_take_ten exG10 "S" "T" 2 false exShown10 12 (by decide)⟩

/-- C6: the undirected-closure minimum-hop report lives only in the
handler of an exception the search never raises: no query outcome is ever
the undirected report or the no-connection error, and on the chain input
the query yields a bare no-path warning although the dead handler would
have reported the 3 intermediate tables of the undirected connection. -/
theorem noPath_dead_branch :
    (∀ (g : DiGraph) (s t : String) (d : Nat) (b : Bool),
      isDeadBranch (pathQuery g s t d b) = false) ∧
    pathQuery exG6 "A" "B" 2 true = PathOutcome.noPathWarning none ∧
    noPathHandler exG6 "A" "B" true = PathOutcome.undirectedReport 3 := by
  refine ⟨?_, by decide, by decide⟩
  intro g s t d b
  unfold pathQuery
  split
  · rfl
  · split
    · split
      · rfl
      · rfl
    · rfl

/-- Concrete value of the connectivity metric on the three-table input:
one relationship over three tables displays as 33 hundredths. -/
theorem connMetric_exG9_eq : connMetric exG9 = 33 / 100 := by
  have hn : exG9.nodes.length = 3 := by decide
  have he : exG9.edges.length = 1 := by decide
  unfold connMetric
  rw [hn, he, if_pos (by norm_num)]
  have harg : ((1 : ℕ) : ℚ) / ((3 : ℕ) : ℚ) * 100 = 100 / 3 := by
    push_cast
    norm_num
  rw [harg]
  have hfl : ⌊(100 : ℚ) / 3⌋ = 33 := by
    rw [Int.floor_eq_iff]
    constructor <;> norm_num
  unfold rndHalfEven
  rw [hfl, if_pos (by push_cast; norm_num)]
  push_cast
  norm_num

/-- C9 counterexample: on the three-table one-relationship graph the
displayed connectivity ratio is 33 hundredths, not the exact quotient one
third, refuting the claimed equality. -/
theorem connectivity_metric_rounding_cex :
    connMetric exG9 ≠ (exG9.edges.length : ℚ) / (exG9.nodes.length : ℚ) := by
  have hn : exG9.nodes.length = 3 := by decide
  have he : exG9.edges.length = 1 := by decide
  rw [connMetric_exG9_eq, hn, he]
  push_cast
  norm_num

/-- C9 (amended): the connectivity statistic is the quotient of
relationships by tables rounded to two decimal places, so it always lies
within one two-hundredth of the exact quotient when the table count is
positive, and it is 0 when the table count is zero; there is no other
special-case logic. -/
theorem connectivity_metric_rounded_bound (g : DiGraph) :
    (0 < g.nodes.length →
      |connMetric g - (g.edges.length : ℚ) / (g.nodes.length : ℚ)| ≤ 1 / 200) ∧
    (g.nodes.length = 0 → connMetric g = 0) := by
  constructor
  · intro h
    unfold connMetric
    rw [if_pos h]
    set q : ℚ := (g.edges.length : ℚ) / (g.nodes.length : ℚ) with hq
    have h1 : (rndHalfEven (q * 100) : ℚ) / 100 - q =
        ((rndHalfEven (q * 100) : ℚ) - q * 100) / 100 := by ring
    rw [h1, abs_div]
    have h2 : |(100 : ℚ)| = 100 := by norm_num
    rw [h2]
    have h3 := abs_rndHalfEven_sub (q * 100)
    have h4 : |(rndHalfEven (q * 100) : ℚ) - q * 100| / 100 ≤ (1 / 2) / 100 := by
      gcongr
    refine le_trans h4 (by norm_num)
  · intro h
    unfold connMetric
    rw [if_neg (by omega)]

/-- C9 witness: the bound applied to the three-table graph and the zero
case applied to the empty graph. -/
theorem connectivity_metric_rounded_bound_witness :
    (0 < exG9.nodes.length ∧
      |connMetric exG9 - (exG9.edges.length : ℚ) / (exG9.nodes.length : ℚ)| ≤
        1 / 200) ∧
    ((buildGraph []).nodes.length = 0 ∧ connMetric (buildGraph []) = 0) :=
  ⟨⟨by decide, (connectivity_metric_rounded_bound exG9).1 (by decide)⟩,
    ⟨by decide, (connectivity_metric_rounded_bound (buildGraph [])).2 (by decide)⟩⟩
